import Mathlib

/-!
Verification development for the wgconfig WireGuard-configuration editor
(source: src/wgconfig/py module, class WGConfig).  The Python source is
shallowly embedded below: the line buffer is a `List String`, the derived
interface/peer records are explicit structures, the lazy caches are a
`Cached` cell, and every method becomes a pure function returning an
`Except` result together with the updated object state.
-/

set_option maxRecDepth 4000

deriving instance DecidableEq for Except

namespace WgVerify

/-! ## Python string primitives used by the source -/

/-- Whitespace characters stripped by Python `str.strip` / `str.rstrip`
(restricted to the ASCII range, which is all the source relies on). -/
def pySpace (c : Char) : Bool :=
  c = ' ' || c = '\t' || c = '\n' || c = '\r' || c = '\x0b' || c = '\x0c'

/-- Strip trailing whitespace from a character list (Python `rstrip`). -/
def rstripL (cs : List Char) : List Char :=
  (cs.reverse.dropWhile pySpace).reverse

/-- Strip leading and trailing whitespace (Python `strip`). -/
def stripL (cs : List Char) : List Char :=
  rstripL (cs.dropWhile pySpace)

/-- Python `str.strip()`. -/
def pyStrip (s : String) : String := ⟨stripL s.data⟩

/-- Python `str.rstrip()`. -/
def pyRstrip (s : String) : String := ⟨rstripL s.data⟩

/-- `isPre p s` holds when `p` is an initial segment of `s`
(Python `str.startswith`). -/
def isPre : List Char → List Char → Bool
  | [], _ => true
  | _ :: _, [] => false
  | p :: ps, c :: cs => p = c && isPre ps cs

/-- Python `str.startswith`. -/
def pyStarts (p s : String) : Bool := isPre p.data s.data

/-- Python `str.replace(needle, old, new)` specialised to the source's only
use, `line.replace('#! ', '')`: remove every occurrence of the disable
marker `#! ` (leftmost-first scan, exactly as CPython does). -/
def dropDM : List Char → List Char
  | '#' :: '!' :: ' ' :: rest => dropDM rest
  | c :: rest => c :: dropDM rest
  | [] => []

/-- Does the character list contain the disable marker `#! ` as a substring? -/
def hasDM : List Char → Bool
  | '#' :: '!' :: ' ' :: _ => true
  | _ :: rest => hasDM rest
  | [] => false

/-- `line.replace('#! ', '')` on strings. -/
def pyReplaceDM (s : String) : String := ⟨dropDM s.data⟩

/-- Python `str.partition(sep)` for a one-character separator, returning
(before, separator-found?, after). -/
def partIn (c : Char) : List Char → List Char × Bool × List Char
  | [] => ([], false, [])
  | x :: xs =>
    if x = c then ([], true, xs)
    else
      let r := partIn c xs
      (x :: r.1, r.2.1, r.2.2)

/-- Python `str.lower` (ASCII). -/
def pyLower (cs : List Char) : String := ⟨cs.map Char.toLower⟩

/-- Python `str.split(',')`: cut at every comma, keeping empty pieces
(`''.split(',') == ['']`). -/
def splitComma : List Char → List (List Char)
  | [] => [[]]
  | c :: cs =>
    if c = ',' then [] :: splitComma cs
    else
      match splitComma cs with
      | [] => [[c]]
      | l :: ls => (c :: l) :: ls

/-- Python `str.isnumeric` restricted to ASCII digit strings (the only
values the source ever feeds it). -/
def pyIsNumeric (s : String) : Bool :=
  !s.data.isEmpty && s.data.all Char.isDigit

/-- Decimal digit string to natural number (Python `int(...)` on an
all-digits string). -/
def natOfDigits (s : String) : Nat :=
  s.data.foldl (fun n c => 10 * n + (c.toNat - 48)) 0

/-! ## Values and dictionaries -/

/-- A single attribute value: Python stores either an `int` (for an
all-digits value part) or a `str`. -/
inductive Val where
  | int (n : Nat)
  | str (s : String)
deriving DecidableEq, Repr

/-- Python `str(v)`. -/
def fmtVal : Val → String
  | .int n => toString n
  | .str s => s

/-- A collapsed dictionary value, after `close_section` replaced
single-element lists by their scalar element. -/
inductive PVal where
  | single (v : Val)
  | vlist (vs : List Val)
deriving DecidableEq, Repr

/-- `v if len(v) > 1 else v[0]` from `close_section` (the empty case never
arises: every parsed value list is nonempty). -/
def collapseV : List Val → PVal
  | [v] => .single v
  | vs => .vlist vs

/-- Python dict assignment `d[k] = v`: replace in place, else append. -/
def dictInsert {κ α : Type} [DecidableEq κ] (k : κ) (v : α) :
    List (κ × α) → List (κ × α)
  | [] => [(k, v)]
  | (k', v') :: r =>
    if k' = k then (k, v) :: r else (k', v') :: dictInsert k v r

/-- Python `d.get(k)` returning an option. -/
def dictGet {κ α : Type} [DecidableEq κ] (k : κ) :
    List (κ × α) → Option α
  | [] => none
  | (k', v) :: r => if k' = k then some v else dictGet k r

/-- `section_data[attr] = section_data.get(attr, []); section_data[attr].extend(vs)`:
append to an existing key's list or add the key at the end. -/
def dictExtend (k : String) (vs : List Val) :
    List (String × List Val) → List (String × List Val)
  | [] => [(k, vs)]
  | (k', vs') :: r =>
    if k' = k then (k', vs' ++ vs) :: r else (k', vs') :: dictExtend k vs r

/-! ## The attribute codec: `parse_line` -/

/-- `WGConfig.parse_line`: split a single attr/value line into
(attribute name, decoded value list, trailing comment). -/
def parse_line (line : String) : String × List Val × String :=
  let p1 := partIn '=' line.data
  let attr : String := ⟨stripL p1.1⟩
  let p2 := partIn '#' p1.2.2
  let value : String := ⟨stripL p2.1⟩
  let comment : String := if p2.2.1 then ⟨'#' :: p2.2.2⟩ else ""
  let values : List Val :=
    if pyIsNumeric value then [.int (natOfDigits value)]
    else (splitComma value.data).map (fun item => Val.str ⟨stripL item⟩)
  (attr, values, comment)

/-! ## Section records and the parse pass -/

/-- A closed section record.  The Python dict mixes the decoded attributes
with the four reserved keys `_index_firstline`, `_index_lastline`,
`_rawdata` and `_disabled`; here the reserved keys become fields
(attribute names colliding with the reserved names are out of scope).
The line bounds are stored as naturals: the parse pass only ever stores
nonnegative indices for a real section. -/
structure Record where
  attrs : List (String × PVal)
  firstline : Nat
  lastline : Nat
  raw : List String
  disabled : Bool
deriving DecidableEq, Repr

/-- The peers dictionary: keyed by the collapsed value of the key
attribute, or `none` when the section lacks that attribute
(Python keys the record by `None`). -/
abbrev Peers := List (Option PVal × Record)

/-- Python slice `lines[a : b + 1]`. -/
def pySlice (lines : List String) (a b : Nat) : List String :=
  (lines.drop a).take (b + 1 - a)

/-- State of the single forward pass in `parse_lines`: the records stored
so far, the current section name, the in-progress section data
(`section_data` minus the reserved keys, which are the `cur*` fields) and
the last-empty-line cursor (initially the virtual line `-1`). -/
structure PMach where
  iface : Option Record
  peers : Peers
  sect : Option String
  curAttrs : List (String × List Val)
  curFirst : Option Int
  curLast : Option Int
  lastEmpty : Option Int
deriving DecidableEq, Repr

def initMach : PMach :=
  { iface := none, peers := [], sect := none, curAttrs := [],
    curFirst := none, curLast := none, lastEmpty := some (-1) }

/-- `close_section`: collapse the value lists, stamp `_rawdata` and
`_disabled`, and store the record under `interface` or under the value of
the key attribute.  Returns the updated (interface, peers) stores. -/
def closeSect (keyattr : String) (lines : List String) (m : PMach) :
    Option Record × Peers :=
  match m.sect with
  | none => (m.iface, m.peers)
  | some s =>
    let attrs := m.curAttrs.map (fun kv => (kv.1, collapseV kv.2))
    let fl := (m.curFirst.getD 0).toNat
    let ll := (m.curLast.getD 0).toNat
    let raw := pySlice lines fl ll
    let r : Record :=
      { attrs := attrs, firstline := fl, lastline := ll, raw := raw,
        disabled := pyStarts "#! " (raw.headD "") }
    if s = "interface" then (some r, m.peers)
    else (m.iface, dictInsert (dictGet keyattr attrs) r m.peers)

/-- Errors raised by the source (`ValueError`, `KeyError`, `IndexError`). -/
inductive Err where
  | valueError (msg : String)
  | keyError (msg : String)
  | indexError (msg : String)
deriving DecidableEq, Repr

/-- The line as the parse loop sees it:
`line.replace('#! ', '').strip()`. -/
def processedLine (s : String) : String := pyStrip (pyReplaceDM s)

/-- `last_empty_line_in_section = i` (or `None`). -/
def withLastEmpty (m : PMach) (x : Option Int) : PMach :=
  { m with lastEmpty := x }

/-- `section_data[SECTION_LASTLINE] = [x]`. -/
def withCurLast (m : PMach) (x : Option Int) : PMach :=
  { m with curLast := x }

/-- The regular-line case: extend the attribute dict and advance the last
line. -/
def withAttrLine (m : PMach) (attr : String) (vals : List Val) (i : Nat) :
    PMach :=
  { m with curAttrs := dictExtend attr vals m.curAttrs,
           curLast := some (i : Int) }

/-- Open a fresh section after closing the previous one: stores `st`,
empty `section_data`, the recorded first/last lines, cursor reset. -/
def startSection (st : Option Record × Peers) (name : String) (first : Int)
    (i : Nat) : PMach :=
  { iface := st.1, peers := st.2, sect := some name, curAttrs := [],
    curFirst := some first, curLast := some (i : Int), lastEmpty := none }

/-- One iteration of the `parse_lines` loop on line `i`.  On the
unsupported-section error the partially filled stores are returned with
the error, exactly as the Python fields `_interface` / `_peers` retain
them when the `ValueError` propagates. -/
def pstep (keyattr : String) (lines : List String) (m : PMach) (i : Nat)
    (rawLine : String) : PMach ⊕ ((Option Record × Peers) × Err) :=
  let line := processedLine rawLine
  if line.length = 0 then .inl (withLastEmpty m (some (i : Int)))
  else if pyStarts "[" line then
    let m1 := match m.lastEmpty with
      | some e => withCurLast m (some (e - 1))
      | none => m
    let st := closeSect keyattr lines m1
    let name := pyLower ((line.data.drop 1).takeWhile (fun c => c ≠ ']'))
    let first : Int := match m.lastEmpty with
      | none => (i : Int)
      | some e => e + 1
    if name ≠ "interface" ∧ name ≠ "peer" then
      .inr (st, .valueError ("Unsupported section " ++ name ++ " in line " ++ toString i))
    else .inl (startSection st name first i)
  else if pyStarts "#" line then .inl (withCurLast m (some (i : Int)))
  else
    let pl := parse_line line
    .inl (withAttrLine m pl.1 pl.2.1 i)

/-- The enumerate loop of `parse_lines`, followed by the final
`close_section`. -/
def parseGo (keyattr : String) (lines : List String) :
    PMach → Nat → List String → (Option Record × Peers) × Option Err
  | m, _, [] => (closeSect keyattr lines m, none)
  | m, i, l :: rest =>
    match pstep keyattr lines m i l with
    | .inl m' => parseGo keyattr lines m' (i + 1) rest
    | .inr (st, e) => (st, some e)

/-- `WGConfig.parse_lines`: parse the line buffer into the interface
record and the peers dictionary.  The second component is the
`ValueError` raised on an unsupported section header, if any; the first
component is what the fields `_interface` / `_peers` hold afterwards
(partial on error). -/
def parse_lines (keyattr : String) (lines : List String) :
    (Option Record × Peers) × Option Err :=
  parseGo keyattr lines initMach 0 lines

/-! ## The WGConfig object -/

/-- A lazily rebuilt derived-data cell: `unbuilt` is the Python `None`
written by `invalidate_data`. -/
inductive Cached (α : Type) where
  | unbuilt
  | built (val : α)
deriving DecidableEq, Repr

/-- The WGConfig object state: key attribute name, the line buffer, and
the two cached derived stores (`_interface` is `none` when the parse saw
no interface section, mirroring the empty dict). -/
structure WGConfig where
  keyattr : String
  lines : List String
  ifaceC : Cached (Option Record)
  peersC : Cached Peers
deriving DecidableEq, Repr

/-- `WGConfig.invalidate_data`. -/
def invalidate_data (cfg : WGConfig) : WGConfig :=
  { cfg with ifaceC := .unbuilt, peersC := .unbuilt }

/-- Run `parse_lines` on the current buffer and store the (possibly
partial) results into the cache fields, returning the raised error if
any. -/
def parseNow (cfg : WGConfig) : WGConfig × Option Err :=
  let r := parse_lines cfg.keyattr cfg.lines
  ({ cfg with ifaceC := .built r.1.1, peersC := .built r.1.2 }, r.2)

/-- The `interface` property: rebuild on an unbuilt cache, then return the
cached value.  A parse error propagates, but the partial stores remain
cached (Python assigns `self._interface` / `self._peers` before raising). -/
def interfaceProp (cfg : WGConfig) : Except Err (Option Record) × WGConfig :=
  match cfg.ifaceC with
  | .built i => (.ok i, cfg)
  | .unbuilt =>
    let r := parseNow cfg
    match r.2 with
    | some e => (.error e, r.1)
    | none =>
      match r.1.ifaceC with
      | .built i => (.ok i, r.1)
      | .unbuilt => (.ok none, r.1)

/-- The `peers` property. -/
def peersProp (cfg : WGConfig) : Except Err Peers × WGConfig :=
  match cfg.peersC with
  | .built p => (.ok p, cfg)
  | .unbuilt =>
    let r := parseNow cfg
    match r.2 with
    | some e => (.error e, r.1)
    | none =>
      match r.1.peersC with
      | .built p => (.ok p, r.1)
      | .unbuilt => (.ok [], r.1)

/-- The dictionary key a lookup by the (public) key `k` compares against:
peer records are keyed by the collapsed key-attribute value. -/
def peerKey (k : Val) : Option PVal := some (.single k)

/-- `WGConfig.handle_leading_comment`: validate and append a leading
comment.  A comment that strips to the empty string hits
`leading_comment.strip()[0]` and raises `IndexError`; one whose first
stripped character is not `#` raises `ValueError`; otherwise the original
comment text is appended to the buffer. -/
def handle_leading_comment (lc : Option String) (cfg : WGConfig) :
    Except Err Unit × WGConfig :=
  match lc with
  | none => (.ok (), cfg)
  | some c =>
    match (pyStrip c).data with
    | [] => (.error (.indexError "string index out of range"), cfg)
    | ch :: _ =>
      if ch ≠ '#' then
        (.error (.valueError "A comment needs to start with a hash"), cfg)
      else (.ok (), { cfg with lines := cfg.lines ++ [c] })

/-- `WGConfig.initialize_file`: empty the buffer, append the optional
leading comment, then the `[Interface]` header, and invalidate. -/
def init_file (lc : Option String) (cfg : WGConfig) :
    Except Err Unit × WGConfig :=
  let c0 := { cfg with lines := ([] : List String) }
  match handle_leading_comment lc c0 with
  | (.error e, c1) => (.error e, c1)
  | (.ok _, c1) =>
    (.ok (), invalidate_data { c1 with lines := c1.lines ++ ["[Interface]"] })

/-- Splitting a character stream at every newline (the pieces carry no
terminator).  Mirrors how Python's `readlines` cuts a text stream. -/
def splitNl : List Char → List (List Char)
  | [] => [[]]
  | c :: cs =>
    if c = '\n' then [] :: splitNl cs
    else
      match splitNl cs with
      | [] => [[c]]
      | l :: ls => (c :: l) :: ls

/-- `readlines` yields no final empty line when the text ends in a
newline (and no lines at all for empty text). -/
def dropTrailEmpty (ps : List (List Char)) : List (List Char) :=
  if ps.getLast? = some ([] : List Char) then ps.dropLast else ps

/-- `[line.rstrip() for line in fobj.readlines()]` applied to the file
text (the trailing `\n` kept by `readlines` is whitespace and vanishes
under `rstrip`, so the pieces can be stripped directly). -/
def loadLines (text : String) : List String :=
  (dropTrailEmpty (splitNl text.data)).map (fun cs => (⟨rstripL cs⟩ : String))

/-- `WGConfig.read_from_fileobj` on the file text. -/
def read_from_fileobj (text : String) (cfg : WGConfig) : WGConfig :=
  invalidate_data { cfg with lines := loadLines text }

/-- `WGConfig.write_to_fileobj`: every buffer line followed by a
newline. -/
def writeText : List String → String
  | [] => ""
  | l :: rest => l ++ "\n" ++ writeText rest

/-- `WGConfig.get_peer` (with `include_details=True`; the detail filter
only drops reserved dict keys, which are fields here). -/
def get_peer (key : Val) (cfg : WGConfig) : Except Err Record × WGConfig :=
  match peersProp cfg with
  | (.error e, c) => (.error e, c)
  | (.ok ps, c) =>
    match dictGet (peerKey key) ps with
    | none => (.error (.keyError "The peer does not exist"), c)
    | some r => (.ok r, c)

/-- `WGConfig.get_peer_enabled`. -/
def get_peer_enabled (key : Val) (cfg : WGConfig) :
    Except Err Bool × WGConfig :=
  match get_peer key cfg with
  | (.error e, c) => (.error e, c)
  | (.ok r, c) => (.ok (!r.disabled), c)

/-- `WGConfig.add_peer`: reject an existing key, append the blank
separator line, the validated leading comment, the `[Peer]` header and
the key line, then invalidate.  Note the blank separator is appended
before the leading comment is validated. -/
def add_peer (key : Val) (lc : Option String) (cfg : WGConfig) :
    Except Err Unit × WGConfig :=
  match peersProp cfg with
  | (.error e, c) => (.error e, c)
  | (.ok ps, c) =>
    if (dictGet (peerKey key) ps).isSome then
      (.error (.keyError "Peer to be added already exists"), c)
    else
      let c1 := { c with lines := c.lines ++ [""] }
      match handle_leading_comment lc c1 with
      | (.error e, c2) => (.error e, c2)
      | (.ok _, c2) =>
        (.ok (), invalidate_data
          { c2 with lines :=
              c2.lines ++ ["[Peer]", cfg.keyattr ++ " = " ++ fmtVal key] })

/-- `WGConfig.del_peer`: remove the section's line span, together with a
single blank line directly before it. -/
def del_peer (key : Val) (cfg : WGConfig) : Except Err Unit × WGConfig :=
  match peersProp cfg with
  | (.error e, c) => (.error e, c)
  | (.ok ps, c) =>
    match dictGet (peerKey key) ps with
    | none => (.error (.keyError "The peer to be deleted does not exist"), c)
    | some r =>
      let fl0 := r.firstline
      let fl := if 0 < fl0 ∧ (c.lines.getD (fl0 - 1) "").length = 0
                then fl0 - 1 else fl0
      (.ok (), invalidate_data
        { c with lines := c.lines.take fl ++ c.lines.drop (r.lastline + 1) })

/-- `WGConfig.get_sectioninfo`: first and last line of the interface
section (`key = none`) or of a peer section.  An interface that never
appeared is an empty dict, so the index lookup raises a bare
`KeyError`. -/
def get_sectioninfo (key : Option Val) (cfg : WGConfig) :
    Except Err (Nat × Nat) × WGConfig :=
  match key with
  | none =>
    match interfaceProp cfg with
    | (.error e, c) => (.error e, c)
    | (.ok none, c) => (.error (.keyError "_index_firstline"), c)
    | (.ok (some r), c) => (.ok (r.firstline, r.lastline), c)
  | some k =>
    match peersProp cfg with
    | (.error e, c) => (.error e, c)
    | (.ok ps, c) =>
      match dictGet (peerKey k) ps with
      | none => (.error (.keyError "The specified peer does not exist"), c)
      | some r => (.ok (r.firstline, r.lastline), c)

/-- Python `list.insert(i, x)` for a nonnegative index (appends when `i`
is past the end). -/
def pyInsertAt (i : Nat) (x : String) (ls : List String) : List String :=
  ls.take i ++ [x] ++ ls.drop i

/-- The scan of `add_attr` / `del_attr` over `range(fl + 1, ll + 1)`:
indices of section lines whose decoded attribute name equals `attr`. -/
def attrMatches (lines : List String) (attr : String) (fl ll : Nat) :
    List Nat :=
  (List.range' (fl + 1) (ll - fl)).filter
    (fun i => (parse_line (lines.getD i "")).1 = attr)

/-- The leading-comment validation shared by `add_attr`
(`leading_comment.strip()[0] != '#'`). -/
def commentErr (lc : Option String) : Option Err :=
  match lc with
  | none => none
  | some c =>
    match (pyStrip c).data with
    | [] => some (.indexError "string index out of range")
    | ch :: _ =>
      if ch = '#' then none
      else some (.valueError "A comment needs to start with a hash")

/-- The rewrite of an existing attribute line by `add_attr`: append the
new value to the decoded list and re-encode, keeping the trailing comment
(with a space before it when nonempty). -/
def rewriteLine (line : String) (value : Val) : String :=
  let pl := parse_line line
  let cm := if 0 < pl.2.2.length then " " ++ pl.2.2 else pl.2.2
  pl.1 ++ " = " ++ String.intercalate ", " ((pl.2.1 ++ [value]).map fmtVal) ++ cm

/-- `WGConfig.add_attr`. -/
def add_attr (key : Option Val) (attr : String) (value : Val)
    (lc : Option String) (append_as_line : Bool) (cfg : WGConfig) :
    Except Err Unit × WGConfig :=
  match get_sectioninfo key cfg with
  | (.error e, c) => (.error e, c)
  | (.ok (fl, ll), c) =>
    match commentErr lc with
    | some e => (.error e, c)
    | none =>
      let ms := attrMatches c.lines attr fl ll
      let edited : Nat × List String :=
        match ms.getLast?, append_as_line with
        | none, _ =>
          (ll + 1, pyInsertAt (ll + 1) (attr ++ " = " ++ fmtVal value) c.lines)
        | some m, true =>
          (m + 1, pyInsertAt (m + 1) (attr ++ " = " ++ fmtVal value) c.lines)
        | some m, false =>
          (m, c.lines.set m (rewriteLine (c.lines.getD m "") value))
      let withLc :=
        match lc with
        | none => edited.2
        | some com => pyInsertAt edited.1 com edited.2
      (.ok (), invalidate_data { c with lines := withLc })

/-- Python `list.remove(v)`: drop the first occurrence. -/
def pyRemove (v : Val) : List Val → List Val
  | [] => []
  | x :: xs => if x = v then xs else x :: pyRemove v xs

/-- One step of the reversed deletion loop of `del_attr` at line `i`:
delete the whole line for `value = none`, otherwise remove the value and
delete or re-encode the line. -/
def delAttrStep (value : Option Val) (ls : List String) (i : Nat) :
    List String :=
  match value with
  | none => ls.eraseIdx i
  | some v =>
    let pl := parse_line (ls.getD i "")
    let lv := pyRemove v pl.2.1
    if lv.isEmpty then ls.eraseIdx i
    else ls.set i (pl.1 ++ " = " ++ String.intercalate ", " (lv.map fmtVal) ++ pl.2.2)

/-- An `i`-indexed comment-only test: `len(lines[i]) and lines[i][0] == '#'`. -/
def isCommentL (s : String) : Bool :=
  match s.data with
  | '#' :: _ => true
  | _ => false

/-- The trailing loop of `del_attr` with `remove_leading_comments`:
starting at `i` and while `i > 0`, delete comment-only lines walking
upward. -/
def delCommentsAbove (ls : List String) : Nat → List String
  | 0 => ls
  | j + 1 =>
    if isCommentL (ls.getD (j + 1) "") then
      delCommentsAbove (ls.eraseIdx (j + 1)) j
    else ls

/-- `WGConfig.del_attr`. -/
def del_attr (key : Option Val) (attr : String) (value : Option Val)
    (removeLeading : Bool) (cfg : WGConfig) : Except Err Unit × WGConfig :=
  match get_sectioninfo key cfg with
  | (.error e, c) => (.error e, c)
  | (.ok (fl, ll), c) =>
    let found := (List.range' (fl + 1) (ll - fl)).filter (fun i =>
      let pl := parse_line (c.lines.getD i "")
      pl.1 = attr ∧ (value = none ∨ ∃ v, value = some v ∧ v ∈ pl.2.1))
    match found with
    | [] => (.error (.valueError "The attribute value to be deleted is not present"), c)
    | m0 :: _ =>
      let ls1 := found.reverse.foldl (delAttrStep value) c.lines
      let ls2 := if removeLeading then delCommentsAbove ls1 (m0 - 1) else ls1
      (.ok (), invalidate_data { c with lines := ls2 })

/-- The per-line transform of `disable_peer`: prepend `#! ` to every line
whose index lies in the section bounds (`i` is the index of the list
head). -/
def markLines (fl ll : Nat) : Nat → List String → List String
  | _, [] => []
  | i, l :: rest =>
    (if fl ≤ i ∧ i ≤ ll then "#! " ++ l else l) :: markLines fl ll (i + 1) rest

/-- The per-line transform of `enable_peer`: `line.replace('#! ', '')` on
every line whose index lies in the section bounds. -/
def unmarkLines (fl ll : Nat) : Nat → List String → List String
  | _, [] => []
  | i, l :: rest =>
    (if fl ≤ i ∧ i ≤ ll then pyReplaceDM l else l) :: unmarkLines fl ll (i + 1) rest

/-- `WGConfig.enable_peer`. -/
def enable_peer (key : Val) (cfg : WGConfig) : Except Err Unit × WGConfig :=
  match peersProp cfg with
  | (.error e, c) => (.error e, c)
  | (.ok ps, c) =>
    match dictGet (peerKey key) ps with
    | none => (.error (.keyError "The peer to be enabled does not exist"), c)
    | some r =>
      (.ok (), invalidate_data
        { c with lines := unmarkLines r.firstline r.lastline 0 c.lines })

/-- `WGConfig.disable_peer`: a no-op (without invalidation) when the
derived `_disabled` flag is already set. -/
def disable_peer (key : Val) (cfg : WGConfig) : Except Err Unit × WGConfig :=
  match peersProp cfg with
  | (.error e, c) => (.error e, c)
  | (.ok ps, c) =>
    match dictGet (peerKey key) ps with
    | none => (.error (.keyError "The peer to be disabled does not exist"), c)
    | some r =>
      if r.disabled then (.ok (), c)
      else
        (.ok (), invalidate_data
          { c with lines := markLines r.firstline r.lastline 0 c.lines })

/-! ## C8: value decoding -/

/-- The value-part of an attribute line in the spec's words: split once on
`=`, take the remainder, split once on the first `#`, trim. -/
def specValuePart (line : String) : String :=
  ⟨stripL (partIn '#' (partIn '=' line.data).2.2).1⟩

/-- The decoded values in the spec's words: an all-digits value-part
becomes a single integer, any other value-part is split on `,` into the
ordered list of trimmed strings. -/
def specValues (line : String) : List Val :=
  let v := specValuePart line
  if !v.data.isEmpty && v.data.all Char.isDigit then [.int (natOfDigits v)]
  else (splitComma v.data).map (fun t => Val.str ⟨stripL t⟩)

/-- C8: for every attribute line, decoding stores an all-digits
value-part as a single integer, and splits every other value-part on `,`
into the ordered list of trimmed strings, with no other coercion. -/
theorem wg_c8_value_decoding (line : String) :
    (parse_line line).2.1 = specValues line := by
  simp only [parse_line, specValues, specValuePart, pyIsNumeric]

/-! ## C7: add_attr placement -/

/-- The spec's description of the buffer produced by `add_attr` on a
section spanning `[fl, ll]`: rewrite the last line whose decoded name
matches (appending to its value list, keeping its trailing comment) when
a match exists and `append_as_line` is false; otherwise insert a new
`attr = value` line right after the last matching line, or after the
section's last line when nothing matched. -/
def addAttrSpecLines (lines : List String) (fl ll : Nat) (attr : String)
    (value : Val) (append_as_line : Bool) : List String :=
  match (attrMatches lines attr fl ll).getLast?, append_as_line with
  | some m, false => lines.set m (rewriteLine (lines.getD m "") value)
  | some m, true => pyInsertAt (m + 1) (attr ++ " = " ++ fmtVal value) lines
  | none, _ => pyInsertAt (ll + 1) (attr ++ " = " ++ fmtVal value) lines

/-- C7: on an existing target section spanning lines `[fl, ll]`,
`add_attr` (without a leading comment) succeeds and rewrites the buffer
exactly as the spec describes: the last matching line is re-encoded with
the appended value and its trailing comment kept when `append_as_line` is
false, otherwise a fresh `attr = value` line is inserted after the last
match, or after the section's last line when no line matched. -/
theorem wg_c7_add_attr (cfg : WGConfig) (key : Option Val) (attr : String)
    (value : Val) (app : Bool) (fl ll : Nat) (c : WGConfig)
    (h : get_sectioninfo key cfg = (.ok (fl, ll), c)) :
    add_attr key attr value none app cfg =
      (.ok (), invalidate_data
        { c with lines := addAttrSpecLines c.lines fl ll attr value app }) := by
  simp only [add_attr, h, commentErr, addAttrSpecLines]
  rcases hm : (attrMatches c.lines attr fl ll).getLast? with _ | m <;> cases app <;> simp

/-- Concrete run of `wg_c7_add_attr`: the scenario file gains a
`ListenPort = 51820` line appended after `PrivateKey`. -/
def c7cfg : WGConfig :=
  ⟨"PublicKey",
   ["[Interface]", "PrivateKey = AAA=", "", "[Peer]", "PublicKey = BBB=",
    "AllowedIPs = 10.0.0.2/32"], .unbuilt, .unbuilt⟩

theorem wg_c7_add_attr_witness :
    add_attr none "ListenPort" (Val.int 51820) none false c7cfg =
      (.ok (), invalidate_data
        { (get_sectioninfo none c7cfg).2 with lines :=
            (addAttrSpecLines (get_sectioninfo none c7cfg).2.lines 0 1
              "ListenPort" (Val.int 51820) false) }) :=
  wg_c7_add_attr c7cfg none "ListenPort" (Val.int 51820) false 0 1
    (get_sectioninfo none c7cfg).2 (by decide)

/-! ## C9: the keyless peer record -/

/-- C9, part 1: closing a non-interface section whose collapsed attribute
dictionary lacks the key attribute stores its record in the peer map
under the null key.  Part 2: a lookup by any actual key value `k` (the
dictionary access every key-based operation, `get_peer`,
`get_peer_enabled`, `del_peer`, `enable_peer` and `disable_peer`,
performs) is unaffected by a record stored under the null key, so the
keyless record is never matched. -/
theorem wg_c9_keyless_peer :
    (∀ (keyattr : String) (lines : List String) (m : PMach) (s : String),
      m.sect = some s → s ≠ "interface" →
      dictGet keyattr (m.curAttrs.map (fun kv => (kv.1, collapseV kv.2))) = none →
      ∃ r, closeSect keyattr lines m = (m.iface, dictInsert none r m.peers)) ∧
    (∀ (ps : Peers) (r : Record) (k : Val),
      dictGet (peerKey k) (dictInsert none r ps) = dictGet (peerKey k) ps) := by
  constructor
  · intro keyattr lines m s hs hne hget
    simp only [closeSect, hs, hget, if_neg hne]
    exact ⟨_, rfl⟩
  · intro ps r k
    induction ps with
    | nil => simp [dictInsert, dictGet, peerKey]
    | cons hd tl ih =>
      by_cases hk : hd.1 = none
      · simp [dictInsert, dictGet, hk, peerKey]
      · simp only [dictInsert, dictGet, if_neg hk]
        rw [ih]

def c9mach : PMach :=
  ⟨none, [], some "peer", [("AllowedIPs", [.str "10.0.0.1"])],
   some 2, some 3, none⟩

theorem wg_c9_keyless_peer_witness :
    (∃ r, closeSect "PublicKey" ["[Interface]", "", "[Peer]", "AllowedIPs = 10.0.0.1"]
        c9mach = (c9mach.iface, dictInsert none r c9mach.peers)) ∧
    dictGet (peerKey (.str "X"))
        (dictInsert none ⟨[], 2, 3, [], false⟩ ([] : Peers)) =
      dictGet (peerKey (.str "X")) ([] : Peers) :=
  ⟨wg_c9_keyless_peer.1 "PublicKey" _ c9mach "peer" rfl (by decide) (by decide),
   wg_c9_keyless_peer.2 [] ⟨[], 2, 3, [], false⟩ (.str "X")⟩

/-! ## C1: parse/write round trip -/

theorem dropWhile_self_idem {α : Type} (p : α → Bool) (l : List α) :
    List.dropWhile p (List.dropWhile p l) = List.dropWhile p l := by
  induction l with
  | nil => simp
  | cons a l ih =>
    by_cases h : p a = true
    · simpa [List.dropWhile_cons, h] using ih
    · simp [List.dropWhile_cons, h]

theorem rstripL_idem (cs : List Char) : rstripL (rstripL cs) = rstripL cs := by
  simp only [rstripL, List.reverse_reverse, dropWhile_self_idem]

theorem mem_of_mem_rstripL {c : Char} {cs : List Char} (h : c ∈ rstripL cs) :
    c ∈ cs := by
  simp only [rstripL, List.mem_reverse] at h
  exact List.mem_reverse.mp ((List.dropWhile_sublist pySpace).mem h)

theorem splitNl_ne_nil (cs : List Char) : splitNl cs ≠ [] := by
  cases cs with
  | nil => simp [splitNl]
  | cons c cs =>
    simp only [splitNl]
    split
    · simp
    · rcases h : splitNl cs with _ | ⟨l, ls⟩ <;> simp

theorem noNl_of_mem_splitNl {p : List Char} {cs : List Char}
    (h : p ∈ splitNl cs) : '\n' ∉ p := by
  induction cs generalizing p with
  | nil => simp only [splitNl, List.mem_singleton] at h; simp [h]
  | cons c cs ih =>
    simp only [splitNl] at h
    by_cases hc : c = '\n'
    · rw [if_pos hc] at h
      rcases List.mem_cons.mp h with h | h
      · simp [h]
      · exact ih h
    · rw [if_neg hc] at h
      rcases hs : splitNl cs with _ | ⟨l, ls⟩
      · exact absurd hs (splitNl_ne_nil cs)
      · rw [hs] at h
        rcases List.mem_cons.mp h with h | h
        · subst h
          intro hmem
          rcases List.mem_cons.mp hmem with h | h
          · exact hc h.symm
          · exact ih (hs ▸ List.mem_cons_self l ls) h
        · exact ih (hs ▸ List.mem_cons_of_mem l h)

theorem splitNl_append_newline {p : List Char} (hp : '\n' ∉ p)
    (cs : List Char) : splitNl (p ++ '\n' :: cs) = p :: splitNl cs := by
  induction p with
  | nil => simp [splitNl]
  | cons a p ih =>
    have ha : a ≠ '\n' := fun h => hp (h ▸ List.mem_cons_self a p)
    have hp' : '\n' ∉ p := fun h => hp (List.mem_cons_of_mem a h)
    simp only [List.cons_append, splitNl, if_neg ha, List.append_eq]
    rw [ih hp']

theorem data_writeText_cons (l : String) (ls : List String) :
    (writeText (l :: ls)).data = l.data ++ '\n' :: (writeText ls).data := by
  show (l ++ "\n" ++ writeText ls).data = _
  rw [String.data_append, String.data_append, List.append_assoc]
  rfl

theorem splitNl_writeText (ls : List String)
    (h : ∀ l ∈ ls, '\n' ∉ l.data) :
    splitNl (writeText ls).data = ls.map String.data ++ [[]] := by
  induction ls with
  | nil => rfl
  | cons l ls ih =>
    rw [data_writeText_cons,
      splitNl_append_newline (h l (List.mem_cons_self l ls)),
      ih (fun x hx => h x (List.mem_cons_of_mem l hx))]
    rfl

theorem dropTrailEmpty_concat_empty (xs : List (List Char)) :
    dropTrailEmpty (xs ++ [[]]) = xs := by
  rw [dropTrailEmpty, if_pos (List.getLast?_concat xs), List.dropLast_concat]

theorem loadLines_writeText (ls : List String)
    (h : ∀ l ∈ ls, '\n' ∉ l.data) :
    loadLines (writeText ls) = ls.map (fun s => (⟨rstripL s.data⟩ : String)) := by
  rw [loadLines, splitNl_writeText ls h, dropTrailEmpty_concat_empty,
    List.map_map]
  rfl

theorem loadLines_lines_clean (t : String) (s : String)
    (hs : s ∈ loadLines t) : rstripL s.data = s.data ∧ '\n' ∉ s.data := by
  rw [loadLines] at hs
  rcases List.mem_map.mp hs with ⟨p, hp, rfl⟩
  have hp' : p ∈ splitNl t.data := by
    rw [dropTrailEmpty] at hp
    split at hp
    · exact (List.dropLast_sublist (splitNl t.data)).mem hp
    · exact hp
  have hnl : '\n' ∉ p := noNl_of_mem_splitNl hp'
  refine ⟨rstripL_idem p, fun hmem => hnl (mem_of_mem_rstripL hmem)⟩

theorem loadLines_writeText_loadLines (t : String) :
    loadLines (writeText (loadLines t)) = loadLines t := by
  rw [loadLines_writeText (loadLines t)
    (fun l hl => (loadLines_lines_clean t l hl).2)]
  have : ∀ s ∈ loadLines t, (⟨rstripL s.data⟩ : String) = s := by
    intro s hs
    have := (loadLines_lines_clean t s hs).1
    calc (⟨rstripL s.data⟩ : String) = ⟨s.data⟩ := by rw [this]
    _ = s := rfl
  rw [List.map_congr_left this]
  simp

/-- C1: for any file text whose sections are all well-formed (the parse
pass raises no error), reading and immediately writing is stable: writing
the freshly read buffer reproduces the written text of the first read,
i.e. write(parse(write(parse(text)))) = write(parse(text)). -/
theorem wg_c1_roundtrip (keyattr t : String)
    (_wf : (parse_lines keyattr (loadLines t)).2 = none) :
    writeText (loadLines (writeText (loadLines t))) =
      writeText (loadLines t) := by
  rw [loadLines_writeText_loadLines]

theorem wg_c1_roundtrip_witness :
    (parse_lines "PublicKey" (loadLines "[Interface]\nPrivateKey = A\n")).2 = none ∧
    writeText (loadLines (writeText (loadLines "[Interface]\nPrivateKey = A\n"))) =
      writeText (loadLines "[Interface]\nPrivateKey = A\n") :=
  ⟨by decide, wg_c1_roundtrip "PublicKey" "[Interface]\nPrivateKey = A\n" (by decide)⟩

/-! ## Lines are untouched by the lazy rebuild -/

theorem peersProp_lines (cfg : WGConfig) :
    (peersProp cfg).2.lines = cfg.lines := by
  simp only [peersProp, parseNow]
  split <;> (try split) <;> rfl

theorem peersProp_keyattr (cfg : WGConfig) :
    (peersProp cfg).2.keyattr = cfg.keyattr := by
  simp only [peersProp, parseNow]
  split <;> (try split) <;> rfl

theorem interfaceProp_lines (cfg : WGConfig) :
    (interfaceProp cfg).2.lines = cfg.lines := by
  simp only [interfaceProp, parseNow]
  split <;> (try split) <;> rfl

/-! ## C4: add_peer with an invalid leading comment -/

def c4cfg : WGConfig := ⟨"PublicKey", ["[Interface]"], .unbuilt, .unbuilt⟩

/-- C4 counterexample: `add_peer` with a fresh key and a leading comment
not starting with `#` does fail with the `ValueError`, but the Line
Buffer is NOT left unchanged: the blank separator line was already
appended before the comment was validated. -/
theorem wg_c4_counterexample :
    (add_peer (.str "K") (some "x") c4cfg).1 =
      .error (.valueError "A comment needs to start with a hash") ∧
    (add_peer (.str "K") (some "x") c4cfg).2.lines ≠ c4cfg.lines := by
  decide

/-- C4 amended: for every state and fresh key, `add_peer` with a leading
comment that strips to a nonempty string not starting with `#` fails
with the `ValueError`, but leaves the Line Buffer with one extra empty
line appended (the separator spliced in before validation). -/
theorem wg_c4_amended (cfg : WGConfig) (k : Val) (com : String)
    (ps : Peers) (c0 : WGConfig)
    (hps : peersProp cfg = (.ok ps, c0))
    (hk : dictGet (peerKey k) ps = none)
    (hne : (pyStrip com).data ≠ [])
    (hh : (pyStrip com).data.headD ' ' ≠ '#') :
    add_peer k (some com) cfg =
      (.error (.valueError "A comment needs to start with a hash"),
       { c0 with lines := c0.lines ++ [""] }) := by
  rcases hd : (pyStrip com).data with _ | ⟨ch, rest⟩
  · exact absurd hd hne
  · have hch : ch ≠ '#' := by
      rw [hd] at hh
      simpa using hh
    simp only [add_peer, hps, hk, Option.isSome_none, Bool.false_eq_true,
      if_false, handle_leading_comment, hd, if_pos hch]

theorem wg_c4_amended_witness :
    add_peer (.str "K") (some "x") c4cfg =
      (.error (.valueError "A comment needs to start with a hash"),
       { (peersProp c4cfg).2 with lines := (peersProp c4cfg).2.lines ++ [""] }) :=
  wg_c4_amended c4cfg (.str "K") "x" ((peersProp c4cfg).1.toOption.getD [])
    (peersProp c4cfg).2 (by decide) (by decide) (by decide) (by decide)

/-! ## C2: cache invalidation by the mutators -/

/-- Both derived caches are torn down. -/
def cachesUnbuilt (c : WGConfig) : Prop :=
  c.ifaceC = Cached.unbuilt ∧ c.peersC = Cached.unbuilt

instance (c : WGConfig) : Decidable (cachesUnbuilt c) := by
  unfold cachesUnbuilt
  infer_instance

def c2cfg : WGConfig :=
  ⟨"PublicKey", ["[Interface]", "", "#! [Peer]", "#! PublicKey = K"],
   .unbuilt, .unbuilt⟩

/-- C2 counterexample: `disable_peer` on an already-disabled peer returns
successfully through its early-exit path without invalidating, so the
derived records are left built, not unbuilt. -/
theorem wg_c2_counterexample :
    (disable_peer (.str "K") c2cfg).1 = .ok () ∧
    (disable_peer (.str "K") c2cfg).2.peersC ≠ Cached.unbuilt := by
  decide

/-- C2 amended: every mutating operation that returns successfully sets
both derived records to unbuilt before returning -- except the
already-disabled early exit of `disable_peer`, which returns without
invalidating but also without touching the Line Buffer; and an unbuilt
record read is rebuilt from the Line Buffer alone by `parse_lines`. -/
theorem wg_c2_amended :
    (∀ lc cfg u c', init_file lc cfg = (.ok u, c') → cachesUnbuilt c') ∧
    (∀ t cfg, cachesUnbuilt (read_from_fileobj t cfg)) ∧
    (∀ k lc cfg u c', add_peer k lc cfg = (.ok u, c') → cachesUnbuilt c') ∧
    (∀ k cfg u c', del_peer k cfg = (.ok u, c') → cachesUnbuilt c') ∧
    (∀ key attr v lc app cfg u c',
      add_attr key attr v lc app cfg = (.ok u, c') → cachesUnbuilt c') ∧
    (∀ key attr v rl cfg u c',
      del_attr key attr v rl cfg = (.ok u, c') → cachesUnbuilt c') ∧
    (∀ k cfg u c', enable_peer k cfg = (.ok u, c') → cachesUnbuilt c') ∧
    (∀ k cfg u c', disable_peer k cfg = (.ok u, c') →
      cachesUnbuilt c' ∨ c'.lines = cfg.lines) ∧
    (∀ cfg i p, cfg.peersC = .unbuilt →
      parse_lines cfg.keyattr cfg.lines = ((i, p), none) →
      peersProp cfg = (.ok p, { cfg with ifaceC := .built i, peersC := .built p })) := by
  refine ⟨?_, ?_, ?_, ?_, ?_, ?_, ?_, ?_, ?_⟩
  · intro lc cfg u c' h
    simp only [init_file] at h
    split at h
    · simp_all
    · injection h with h1 h2
      subst h2
      exact ⟨rfl, rfl⟩
  · intro t cfg
    exact ⟨rfl, rfl⟩
  · intro k lc cfg u c' h
    simp only [add_peer] at h
    split at h
    · simp_all
    · split at h
      · simp_all
      · split at h
        · simp_all
        · injection h with h1 h2
          subst h2
          exact ⟨rfl, rfl⟩
  · intro k cfg u c' h
    simp only [del_peer] at h
    split at h
    · simp_all
    · split at h
      · simp_all
      · injection h with h1 h2
        subst h2
        exact ⟨rfl, rfl⟩
  · intro key attr v lc app cfg u c' h
    simp only [add_attr] at h
    split at h
    · simp_all
    · split at h
      · simp_all
      · injection h with h1 h2
        subst h2
        exact ⟨rfl, rfl⟩
  · intro key attr v rl cfg u c' h
    simp only [del_attr] at h
    split at h
    · simp_all
    · split at h
      · simp_all
      · injection h with h1 h2
        subst h2
        exact ⟨rfl, rfl⟩
  · intro k cfg u c' h
    simp only [enable_peer] at h
    split at h
    · simp_all
    · split at h
      · simp_all
      · injection h with h1 h2
        subst h2
        exact ⟨rfl, rfl⟩
  · intro k cfg u c' h
    simp only [disable_peer] at h
    split at h
    · simp_all
    · rename_i ps c heq
      split at h
      · simp_all
      · split at h
        · right
          injection h with h1 h2
          have := peersProp_lines cfg
          rw [heq] at this
          rw [← h2, this]
        · left
          injection h with h1 h2
          subst h2
          exact ⟨rfl, rfl⟩
  · intro cfg i p hun hp
    simp [peersProp, parseNow, hun, hp]

theorem wg_c2_amended_witness :
    cachesUnbuilt (init_file none c2cfg).2 ∧
    cachesUnbuilt (read_from_fileobj "[Interface]\n" c2cfg) ∧
    cachesUnbuilt (add_peer (.str "L") none c2cfg).2 ∧
    cachesUnbuilt (del_peer (.str "K") c2cfg).2 ∧
    cachesUnbuilt (add_attr none "ListenPort" (.int 1) none false c2cfg).2 ∧
    cachesUnbuilt (del_attr (some (.str "K")) "#! PublicKey" none true c2cfg).2 ∧
    cachesUnbuilt (enable_peer (.str "K") c2cfg).2 ∧
    (cachesUnbuilt (disable_peer (.str "K") c2cfg).2 ∨
      (disable_peer (.str "K") c2cfg).2.lines = c2cfg.lines) ∧
    peersProp c2cfg =
      (.ok (parse_lines c2cfg.keyattr c2cfg.lines).1.2,
       { c2cfg with ifaceC := .built (parse_lines c2cfg.keyattr c2cfg.lines).1.1,
                    peersC := .built (parse_lines c2cfg.keyattr c2cfg.lines).1.2 }) :=
  ⟨wg_c2_amended.1 none c2cfg () (init_file none c2cfg).2 (by decide),
   wg_c2_amended.2.1 "[Interface]\n" c2cfg,
   wg_c2_amended.2.2.1 (.str "L") none c2cfg () (add_peer (.str "L") none c2cfg).2 (by decide),
   wg_c2_amended.2.2.2.1 (.str "K") c2cfg () (del_peer (.str "K") c2cfg).2 (by decide),
   wg_c2_amended.2.2.2.2.1 none "ListenPort" (.int 1) none false c2cfg ()
     (add_attr none "ListenPort" (.int 1) none false c2cfg).2 (by decide),
   wg_c2_amended.2.2.2.2.2.1 (some (.str "K")) "#! PublicKey" none true c2cfg ()
     (del_attr (some (.str "K")) "#! PublicKey" none true c2cfg).2 (by decide),
   wg_c2_amended.2.2.2.2.2.2.1 (.str "K") c2cfg () (enable_peer (.str "K") c2cfg).2 (by decide),
   wg_c2_amended.2.2.2.2.2.2.2.1 (.str "K") c2cfg () (disable_peer (.str "K") c2cfg).2 (by decide),
   wg_c2_amended.2.2.2.2.2.2.2.2 c2cfg (parse_lines c2cfg.keyattr c2cfg.lines).1.1
     (parse_lines c2cfg.keyattr c2cfg.lines).1.2 rfl (by decide)⟩

/-! ## C3: failed parse leaves an observable partial model -/

def c3cfg : WGConfig :=
  ⟨"PublicKey", ["[Interface]", "PrivateKey = A", "", "[Foo]"],
   .unbuilt, .unbuilt⟩

/-- C3 counterexample: on a buffer with an unsupported `[Foo]` header the
first derived read raises the fatal parse error, but the sections closed
before the error were stored, and a second read of the `interface`
property serves that partially built record without re-raising -- a
partial model IS observable through queries after the failure. -/
theorem wg_c3_counterexample :
    (∃ e, (interfaceProp c3cfg).1 = .error e) ∧
    (interfaceProp (interfaceProp c3cfg).2).1 =
      .ok (some ⟨[("PrivateKey", .single (.str "A"))], 0, 1,
        ["[Interface]", "PrivateKey = A"], false⟩) := by
  exact ⟨⟨.valueError "Unsupported section foo in line 3", by decide⟩, by decide⟩

/-- C3 amended: an unsupported bracketed section header makes the parse
pass fail fatally (the error reaches the caller of the first derived
read), but it does not leave "no partial model": the sections closed
before the error remain stored in the derived records, and because the
failed parse leaves the caches built, every later derived read serves
this partial model without re-parsing or re-raising. -/
theorem wg_c3_amended (cfg : WGConfig) (i : Option Record) (p : Peers)
    (e : Err) (hc : cfg.ifaceC = .unbuilt)
    (hp : parse_lines cfg.keyattr cfg.lines = ((i, p), some e)) :
    interfaceProp cfg =
      (.error e, { cfg with ifaceC := .built i, peersC := .built p }) ∧
    interfaceProp { cfg with ifaceC := .built i, peersC := .built p } =
      (.ok i, { cfg with ifaceC := .built i, peersC := .built p }) ∧
    peersProp { cfg with ifaceC := .built i, peersC := .built p } =
      (.ok p, { cfg with ifaceC := .built i, peersC := .built p }) := by
  refine ⟨?_, by simp [interfaceProp], by simp [peersProp]⟩
  simp [interfaceProp, parseNow, hc, hp]

theorem wg_c3_amended_witness :
    interfaceProp c3cfg =
      (.error (.valueError "Unsupported section foo in line 3"),
       { c3cfg with
          ifaceC := .built (parse_lines c3cfg.keyattr c3cfg.lines).1.1,
          peersC := .built (parse_lines c3cfg.keyattr c3cfg.lines).1.2 }) :=
  (wg_c3_amended c3cfg (parse_lines c3cfg.keyattr c3cfg.lines).1.1
    (parse_lines c3cfg.keyattr c3cfg.lines).1.2
    (.valueError "Unsupported section foo in line 3") rfl (by decide)).1

/-! ## C10: the upward comment scan of del_attr -/

theorem get_sectioninfo_lines (key : Option Val) (cfg : WGConfig) :
    (get_sectioninfo key cfg).2.lines = cfg.lines := by
  rcases key with _ | k
  · rcases h : interfaceProp cfg with ⟨e1, c⟩
    have hl : c.lines = cfg.lines := by rw [← interfaceProp_lines cfg, h]
    rcases e1 with e | i
    · simpa [get_sectioninfo, h] using hl
    · rcases i with _ | r <;> simp [get_sectioninfo, h, hl]
  · rcases h : peersProp cfg with ⟨e1, c⟩
    have hl : c.lines = cfg.lines := by rw [← peersProp_lines cfg, h]
    rcases e1 with e | ps
    · simp [get_sectioninfo, h, hl]
    · rcases hg : dictGet (peerKey k) ps with _ | r <;>
        simp [get_sectioninfo, h, hg, hl]

/-- The first buffer index the upward comment scan of `del_attr` keeps,
starting the examination at index `i`: the scan walks down over
comment-only lines but never past index `1`. -/
def runStart (ls : List String) : Nat → Nat
  | 0 => 1
  | j + 1 => if isCommentL (ls.getD (j + 1) "") then runStart ls j else j + 2

theorem runStart_pos (ls : List String) (i : Nat) : 1 ≤ runStart ls i := by
  induction i with
  | zero => simp [runStart]
  | succ j ih =>
    rw [runStart]
    split
    · exact ih
    · omega

theorem runStart_le (ls : List String) (i : Nat) : runStart ls i ≤ i + 1 := by
  induction i with
  | zero => simp [runStart]
  | succ j ih =>
    rw [runStart]
    split
    · omega
    · omega

theorem runStart_congr (ls1 ls2 : List String) (i : Nat)
    (h : ∀ t, t ≤ i → ls1.getD t "" = ls2.getD t "") :
    runStart ls1 i = runStart ls2 i := by
  induction i with
  | zero => rfl
  | succ j ih =>
    rw [runStart, runStart, h (j + 1) le_rfl]
    split
    · exact ih (fun t ht => h t (Nat.le_succ_of_le ht))
    · rfl

theorem getD_eraseIdx_lt (ls : List String) (n t : Nat) (h : t < n) :
    (ls.eraseIdx n).getD t "" = ls.getD t "" := by
  rw [List.getD_eq_getElem?_getD, List.getD_eq_getElem?_getD,
    List.getElem?_eraseIdx, if_pos h]

theorem take_eraseIdx_of_le (ls : List String) (n r : Nat) (h : r ≤ n) :
    (ls.eraseIdx n).take r = ls.take r := by
  apply List.ext_getElem?
  intro t
  rw [List.getElem?_take, List.getElem?_take]
  split
  · rw [List.getElem?_eraseIdx, if_pos (by omega)]
  · rfl

theorem drop_eraseIdx_succ (ls : List String) (j : Nat) :
    (ls.eraseIdx (j + 1)).drop (j + 1) = ls.drop (j + 2) := by
  apply List.ext_getElem?
  intro t
  rw [List.getElem?_drop, List.getElem?_drop, List.getElem?_eraseIdx,
    if_neg (by omega)]
  congr 1
  omega

theorem delCommentsAbove_eq (i : Nat) (ls : List String) :
    delCommentsAbove ls i = ls.take (runStart ls i) ++ ls.drop (i + 1) := by
  induction i generalizing ls with
  | zero =>
    rw [delCommentsAbove, runStart, List.take_append_drop]
  | succ j ih =>
    rw [delCommentsAbove, runStart]
    split
    · rw [ih]
      have h1 : runStart (ls.eraseIdx (j + 1)) j = runStart ls j :=
        runStart_congr _ _ j
          (fun t ht => getD_eraseIdx_lt ls (j + 1) t (by omega))
      rw [h1, take_eraseIdx_of_le ls (j + 1) _ (runStart_le ls j),
        drop_eraseIdx_succ]
    · rw [List.take_append_drop]

theorem head?_take_pos {α : Type} (r : Nat) (ls : List α) (h : 1 ≤ r) :
    (ls.take r).head? = ls.head? := by
  cases ls with
  | nil => simp
  | cons a t =>
    rcases r with _ | r
    · omega
    · simp [List.take_succ_cons]

theorem delCommentsAbove_head? (ls : List String) (i : Nat) :
    (delCommentsAbove ls i).head? = ls.head? := by
  rw [delCommentsAbove_eq]
  rw [List.head?_eq_getElem?, List.head?_eq_getElem?, List.getElem?_append]
  have hr := runStart_pos ls i
  cases ls with
  | nil => simp
  | cons a t =>
    rw [if_pos]
    · rw [List.getElem?_take, if_pos (by omega)]
    · rw [List.length_take]
      have : 0 < (a :: t).length := by simp
      omega

theorem delAttrStep_head? (v : Option Val) (ls : List String) (i : Nat)
    (h : 1 ≤ i) : (delAttrStep v ls i).head? = ls.head? := by
  rcases v with _ | v
  · rw [delAttrStep, List.head?_eq_getElem?, List.head?_eq_getElem?,
      List.getElem?_eraseIdx, if_pos (by omega)]
  · simp only [delAttrStep]
    split
    · rw [List.head?_eq_getElem?, List.head?_eq_getElem?,
        List.getElem?_eraseIdx, if_pos (by omega)]
    · rw [List.head?_eq_getElem?, List.head?_eq_getElem?,
        List.getElem?_set, if_neg (by omega)]

theorem foldl_delAttrStep_head? (v : Option Val) (idxs : List Nat)
    (h : ∀ x ∈ idxs, 1 ≤ x) :
    ∀ ls : List String, (idxs.foldl (delAttrStep v) ls).head? = ls.head? := by
  induction idxs with
  | nil => intro ls; rfl
  | cons a t ih =>
    intro ls
    rw [List.foldl_cons, ih (fun x hx => h x (List.mem_cons_of_mem a hx)),
      delAttrStep_head? v ls a (h a (List.mem_cons_self a t))]

/-- C10: the upward comment scan of `del_attr` with
`remove_leading_comments` deletes exactly the contiguous run of
comment-only lines above its start index down to (but never including)
buffer index `0`: the loop result is `take (runStart) ++ drop (i + 1)`
with `runStart ≥ 1`, and consequently a successful or failed `del_attr`
never changes the first buffer line -- a comment there survives even when
it sits directly above the first matched line. -/
theorem wg_c10_first_line_survives :
    (∀ (ls : List String) (i : Nat),
      delCommentsAbove ls i = ls.take (runStart ls i) ++ ls.drop (i + 1) ∧
      1 ≤ runStart ls i) ∧
    (∀ (cfg : WGConfig) (key : Option Val) (attr : String)
      (value : Option Val) (out : Except Err Unit) (c' : WGConfig),
      del_attr key attr value true cfg = (out, c') →
      c'.lines.head? = cfg.lines.head?) := by
  constructor
  · intro ls i
    exact ⟨delCommentsAbove_eq i ls, runStart_pos ls i⟩
  · intro cfg key attr value out c' h
    simp only [del_attr] at h
    split at h
    · rename_i e c heq
      injection h with h1 h2
      rw [← h2, ← get_sectioninfo_lines key cfg, heq]
    · rename_i p fl ll c heq
      have hcl : c.lines = cfg.lines := by
        rw [← get_sectioninfo_lines key cfg, heq]
      split at h
      · injection h with h1 h2
        rw [← h2, hcl]
      · rename_i m0 rest hfound
        injection h with h1 h2
        have hidx : ∀ x ∈ (m0 :: rest).reverse, 1 ≤ x := by
          intro x hx
          have hx2 : x ∈ m0 :: rest := List.mem_reverse.mp hx
          rw [← hfound] at hx2
          have hx' := (List.mem_filter.mp hx2).1
          rcases List.mem_range'.mp hx' with ⟨t, ht, rfl⟩
          omega
        rw [← h2]
        simp only [invalidate_data]
        rw [if_pos trivial, hfound, delCommentsAbove_head?,
          foldl_delAttrStep_head? value _ hidx c.lines, hcl]

def c10cfg : WGConfig :=
  ⟨"PublicKey", ["#! [Interface]", "#! A = 1"], .unbuilt, .unbuilt⟩

theorem wg_c10_first_line_survives_witness :
    (del_attr none "#! A" none true c10cfg).2.lines.head? =
      c10cfg.lines.head? :=
  wg_c10_first_line_survives.2 c10cfg none "#! A" none
    (del_attr none "#! A" none true c10cfg).1
    (del_attr none "#! A" none true c10cfg).2 rfl

/-! ## Disable-marker facts -/

theorem dropDM_eq_self (cs : List Char) (h : hasDM cs = false) :
    dropDM cs = cs := by
  induction cs using dropDM.induct with
  | case1 rest ih => simp [hasDM] at h
  | case2 c rest hne ih =>
    rw [hasDM] at h
    · rw [dropDM, ih h]
      exact hne
    · exact hne
  | case3 => rfl

theorem data_mark (l : String) :
    ("#! " ++ l).data = '#' :: '!' :: ' ' :: l.data := by
  rw [String.data_append]
  rfl

theorem pyReplaceDM_mark (l : String) :
    pyReplaceDM ("#! " ++ l) = pyReplaceDM l := by
  show (⟨dropDM ("#! " ++ l).data⟩ : String) = _
  rw [data_mark]
  rfl

theorem pyReplaceDM_mark_clean (l : String) (h : hasDM l.data = false) :
    pyReplaceDM ("#! " ++ l) = l := by
  rw [pyReplaceDM_mark]
  show (⟨dropDM l.data⟩ : String) = l
  rw [dropDM_eq_self l.data h]

theorem processedLine_mark (l : String) :
    processedLine ("#! " ++ l) = processedLine l := by
  rw [processedLine, processedLine, pyReplaceDM_mark]

theorem pyStarts_mark (x : String) : pyStarts "#! " ("#! " ++ x) = true := by
  show isPre ("#! " : String).data ("#! " ++ x).data = true
  rw [data_mark]
  show isPre ['#', '!', ' '] _ = true
  simp [isPre]

/-! ## Transport of parse results between buffers with equal processed lines

The control flow of `parse_lines` depends on a line only through
`line.replace('#! ', '').strip()`; only the stamped `_rawdata` and
`_disabled` fields read the raw buffer.  So the parse of a buffer whose
processed lines agree with another differs only in those two recomputed
fields. -/

/-- Recompute `_rawdata` and `_disabled` of a record from another
buffer. -/
def reRec (lines : List String) (r : Record) : Record :=
  { attrs := r.attrs, firstline := r.firstline, lastline := r.lastline,
    raw := pySlice lines r.firstline r.lastline,
    disabled := pyStarts "#! " ((pySlice lines r.firstline r.lastline).headD "") }

def reIfc (lines : List String) (o : Option Record) : Option Record :=
  o.map (reRec lines)

def rePeers (lines : List String) (ps : Peers) : Peers :=
  ps.map (fun kr => (kr.1, reRec lines kr.2))

def reMach (lines : List String) (m : PMach) : PMach :=
  { m with iface := reIfc lines m.iface, peers := rePeers lines m.peers }

theorem dictInsert_rePeers (lines : List String) (k : Option PVal)
    (v : Record) (ps : Peers) :
    dictInsert k (reRec lines v) (rePeers lines ps) =
      rePeers lines (dictInsert k v ps) := by
  induction ps with
  | nil => rfl
  | cons hd tl ih =>
    simp only [rePeers] at ih ⊢
    by_cases hk : hd.1 = k
    · simp [dictInsert, hk]
    · simp only [List.map_cons, dictInsert, if_neg hk]
      rw [ih]

theorem dictGet_rePeers (lines : List String) (k : Option PVal) (ps : Peers) :
    dictGet k (rePeers lines ps) = (dictGet k ps).map (reRec lines) := by
  induction ps with
  | nil => rfl
  | cons hd tl ih =>
    simp only [rePeers] at ih ⊢
    by_cases hk : hd.1 = k
    · simp [dictGet, hk]
    · simp only [List.map_cons, dictGet, if_neg hk]
      rw [ih]

theorem dictGet_mem {κ α : Type} [DecidableEq κ] (k : κ) (ps : List (κ × α))
    (v : α) (h : dictGet k ps = some v) : (k, v) ∈ ps := by
  induction ps with
  | nil => simp [dictGet] at h
  | cons hd tl ih =>
    rw [dictGet] at h
    split at h
    · rename_i hk
      injection h with h2
      rw [← hk, ← h2]
      exact List.mem_cons_self hd tl
    · exact List.mem_cons_of_mem hd (ih h)

theorem closeSect_re (keyattr : String) (lines1 lines2 : List String)
    (m : PMach) :
    closeSect keyattr lines2 (reMach lines2 m) =
      (reIfc lines2 (closeSect keyattr lines1 m).1,
       rePeers lines2 (closeSect keyattr lines1 m).2) := by
  rcases hS : m.sect with _ | s
  · simp [closeSect, reMach, hS]
  · by_cases hI : s = "interface"
    · subst hI
      simp [closeSect, reMach, hS, reIfc, reRec]
    · simp [closeSect, reMach, hS, hI, reIfc, ← dictInsert_rePeers, reRec]

theorem withLastEmpty_re (L : List String) (m : PMach) (x : Option Int) :
    withLastEmpty (reMach L m) x = reMach L (withLastEmpty m x) := rfl

theorem withCurLast_re (L : List String) (m : PMach) (x : Option Int) :
    withCurLast (reMach L m) x = reMach L (withCurLast m x) := rfl

theorem withAttrLine_re (L : List String) (m : PMach) (a : String)
    (vs : List Val) (i : Nat) :
    withAttrLine (reMach L m) a vs i = reMach L (withAttrLine m a vs i) := rfl

theorem startSection_re (L : List String) (st : Option Record × Peers)
    (n : String) (f : Int) (i : Nat) :
    startSection (reIfc L st.1, rePeers L st.2) n f i =
      reMach L (startSection st n f i) := rfl

theorem pstep_re (keyattr : String) (lines1 lines2 : List String)
    (m : PMach) (i : Nat) (l1 l2 : String)
    (hl : processedLine l2 = processedLine l1) :
    pstep keyattr lines2 (reMach lines2 m) i l2 =
      match pstep keyattr lines1 m i l1 with
      | .inl m' => .inl (reMach lines2 m')
      | .inr (st, e) => .inr ((reIfc lines2 st.1, rePeers lines2 st.2), e) := by
  have hLEp : (reMach lines2 m).lastEmpty = m.lastEmpty := rfl
  simp only [pstep, hl, hLEp]
  by_cases h1 : (processedLine l1).length = 0
  · rw [if_pos h1, if_pos h1, withLastEmpty_re]
  · rw [if_neg h1, if_neg h1]
    by_cases h2 : pyStarts "[" (processedLine l1) = true
    · rw [if_pos h2, if_pos h2]
      rcases hLE : m.lastEmpty with _ | e
      · dsimp only
        rw [closeSect_re keyattr lines1 lines2 m]
        by_cases h3 : pyLower ((processedLine l1).data.drop 1|>.takeWhile
            (fun c => c ≠ ']')) ≠ "interface" ∧
            pyLower ((processedLine l1).data.drop 1|>.takeWhile
            (fun c => c ≠ ']')) ≠ "peer"
        · rw [if_pos h3, if_pos h3]
        · rw [if_neg h3, if_neg h3, startSection_re]
      · dsimp only
        rw [withCurLast_re,
          closeSect_re keyattr lines1 lines2 (withCurLast m (some (e - 1)))]
        by_cases h3 : pyLower ((processedLine l1).data.drop 1|>.takeWhile
            (fun c => c ≠ ']')) ≠ "interface" ∧
            pyLower ((processedLine l1).data.drop 1|>.takeWhile
            (fun c => c ≠ ']')) ≠ "peer"
        · rw [if_pos h3, if_pos h3]
        · rw [if_neg h3, if_neg h3, startSection_re]
    · rw [if_neg h2, if_neg h2]
      by_cases h3 : pyStarts "#" (processedLine l1) = true
      · rw [if_pos h3, if_pos h3, withCurLast_re]
      · rw [if_neg h3, if_neg h3, withAttrLine_re]

theorem parseGo_re (keyattr : String) (lines1 lines2 : List String)
    (rest1 rest2 : List String)
    (hrel : List.Forall₂ (fun a b => processedLine a = processedLine b)
      rest2 rest1) :
    ∀ (m : PMach) (i : Nat),
    parseGo keyattr lines2 (reMach lines2 m) i rest2 =
      ((reIfc lines2 (parseGo keyattr lines1 m i rest1).1.1,
        rePeers lines2 (parseGo keyattr lines1 m i rest1).1.2),
       (parseGo keyattr lines1 m i rest1).2) := by
  induction hrel with
  | nil =>
    intro m i
    simp only [parseGo]
    rw [closeSect_re keyattr lines1 lines2 m]
  | cons hab htl ih =>
    intro m i
    rename_i a b t1 t2
    simp only [parseGo]
    rw [pstep_re keyattr lines1 lines2 m i b a hab]
    rcases hst : pstep keyattr lines1 m i b with m' | ⟨st, e⟩
    · exact ih m' (i + 1)
    · rfl

theorem parse_lines_re (keyattr : String) (lines1 lines2 : List String)
    (hrel : List.Forall₂ (fun a b => processedLine a = processedLine b)
      lines2 lines1) :
    parse_lines keyattr lines2 =
      ((reIfc lines2 (parse_lines keyattr lines1).1.1,
        rePeers lines2 (parse_lines keyattr lines1).1.2),
       (parse_lines keyattr lines1).2) := by
  have h0 : reMach lines2 initMach = initMach := rfl
  rw [parse_lines, parse_lines, ← h0]
  exact parseGo_re keyattr lines1 lines2 lines1 lines2 hrel initMach 0

/-! ## Bounds invariant of the parse pass

Every record the parse pass stores has `firstline ≤ lastline` and
`lastline` below the number of lines processed. -/

def RecOK (n : Nat) (r : Record) : Prop :=
  r.firstline ≤ r.lastline ∧ r.lastline < n

def StoresOK (n : Nat) (st : Option Record × Peers) : Prop :=
  (∀ r, st.1 = some r → RecOK n r) ∧ (∀ kr ∈ st.2, RecOK n kr.2)

def MachOK (n : Nat) (m : PMach) : Prop :=
  StoresOK n (m.iface, m.peers) ∧
  (∀ e, m.lastEmpty = some e → -1 ≤ e ∧ e < (n : Int)) ∧
  (∀ s, m.sect = some s →
    ∃ f l, m.curFirst = some f ∧ m.curLast = some l ∧ 0 ≤ f ∧ f ≤ l ∧
      l < (n : Int) ∧ ∀ e, m.lastEmpty = some e → f ≤ e - 1)

theorem RecOK_mono {n n' : Nat} (h : n ≤ n') {r : Record}
    (hr : RecOK n r) : RecOK n' r :=
  ⟨hr.1, lt_of_lt_of_le hr.2 h⟩

theorem StoresOK_mono {n n' : Nat} (h : n ≤ n')
    {st : Option Record × Peers} (hs : StoresOK n st) : StoresOK n' st :=
  ⟨fun r hr => RecOK_mono h (hs.1 r hr),
   fun kr hkr => RecOK_mono h (hs.2 kr hkr)⟩

theorem mem_dictInsert {κ α : Type} [DecidableEq κ] {k : κ} {v : α}
    {ps : List (κ × α)} {kr : κ × α} (h : kr ∈ dictInsert k v ps) :
    kr = (k, v) ∨ kr ∈ ps := by
  induction ps with
  | nil =>
    rw [dictInsert] at h
    exact Or.inl (List.mem_singleton.mp h)
  | cons hd tl ih =>
    rw [dictInsert] at h
    split at h
    · rcases List.mem_cons.mp h with h | h
      · exact Or.inl h
      · exact Or.inr (List.mem_cons_of_mem hd h)
    · rcases List.mem_cons.mp h with h | h
      · exact Or.inr (h ▸ List.mem_cons_self hd tl)
      · rcases ih h with h | h
        · exact Or.inl h
        · exact Or.inr (List.mem_cons_of_mem hd h)

theorem closeSect_OK (keyattr : String) (lines : List String) (n : Nat)
    (m : PMach) (hm : MachOK n m) :
    StoresOK n (closeSect keyattr lines m) := by
  rcases hS : m.sect with _ | s
  · simpa [closeSect, hS] using hm.1
  · obtain ⟨f, l, hcf, hcl, hf0, hfl, hln, -⟩ := hm.2.2 s hS
    have hrec : RecOK n
        { attrs := m.curAttrs.map (fun kv => (kv.1, collapseV kv.2)),
          firstline := (m.curFirst.getD 0).toNat,
          lastline := (m.curLast.getD 0).toNat,
          raw := pySlice lines (m.curFirst.getD 0).toNat (m.curLast.getD 0).toNat,
          disabled := pyStarts "#! "
            ((pySlice lines (m.curFirst.getD 0).toNat
              (m.curLast.getD 0).toNat).headD "") } := by
      constructor
      · show (m.curFirst.getD 0).toNat ≤ (m.curLast.getD 0).toNat
        rw [hcf, hcl]
        simp only [Option.getD_some]
        omega
      · show (m.curLast.getD 0).toNat < n
        rw [hcl]
        simp only [Option.getD_some]
        omega
    rw [closeSect, hS]
    dsimp only
    split
    · constructor
      · intro r hr
        injection hr with hr2
        rw [← hr2]
        exact hrec
      · exact hm.1.2
    · constructor
      · exact hm.1.1
      · intro kr hkr
        rcases mem_dictInsert hkr with h | h
        · rw [h]
          exact hrec
        · exact hm.1.2 kr h

theorem pstep_OK (keyattr : String) (lines : List String) (m : PMach)
    (i : Nat) (l : String) (hm : MachOK i m) :
    (∀ m', pstep keyattr lines m i l = .inl m' → MachOK (i + 1) m') ∧
    (∀ st e, pstep keyattr lines m i l = .inr (st, e) →
      StoresOK (i + 1) st) := by
  have hm1ofLE : ∀ e : Int, m.lastEmpty = some e → MachOK i (withCurLast m (some (e - 1))) := by
    intro e hLE
    refine ⟨hm.1, hm.2.1, ?_⟩
    intro s hs
    obtain ⟨f, l', hcf, hcl, hf0, hfl, hln, hle⟩ := hm.2.2 s hs
    obtain ⟨he1, he2⟩ := hm.2.1 e hLE
    exact ⟨f, e - 1, hcf, rfl, hf0, hle e hLE, by omega,
      fun e' he' => hle e' he'⟩
  have hOKlast : ∀ m0 : PMach, MachOK i m0 → m0.lastEmpty = m.lastEmpty →
      MachOK (i + 1) (withCurLast m0 (some (i : Int))) := by
    intro m0 hm0 _
    refine ⟨StoresOK_mono (Nat.le_succ i) hm0.1, ?_, ?_⟩
    · intro e he
      obtain ⟨he1, he2⟩ := hm0.2.1 e he
      exact ⟨he1, by omega⟩
    · intro s hs
      obtain ⟨f, l', hcf, hcl, hf0, hfl, hln, hle⟩ := hm0.2.2 s hs
      exact ⟨f, (i : Int), hcf, rfl, hf0, by omega, by omega, hle⟩
  by_cases h1 : (processedLine l).length = 0
  · have hps : pstep keyattr lines m i l =
        .inl (withLastEmpty m (some (i : Int))) := by
      simp only [pstep]
      rw [if_pos h1]
    constructor
    · intro m' hstep
      rw [hps] at hstep
      injection hstep with h4
      rw [← h4]
      refine ⟨StoresOK_mono (Nat.le_succ i) hm.1, ?_, ?_⟩
      · intro e he
        injection he with he
        constructor <;> omega
      · intro s hs
        obtain ⟨f, l', hcf, hcl, hf0, hfl, hln, -⟩ := hm.2.2 s hs
        exact ⟨f, l', hcf, hcl, hf0, hfl, by omega,
          fun e he => by injection he with he; omega⟩
    · intro st e hstep
      rw [hps] at hstep
      exact absurd hstep (by simp)
  · by_cases h2 : pyStarts "[" (processedLine l) = true
    · -- a section header line
      rcases hLE : m.lastEmpty with _ | e
      · have hmOK : MachOK i m := hm
        have hstOK := closeSect_OK keyattr lines i m hm
        by_cases h3 : pyLower ((processedLine l).data.drop 1|>.takeWhile
            (fun c => c ≠ ']')) ≠ "interface" ∧
            pyLower ((processedLine l).data.drop 1|>.takeWhile
            (fun c => c ≠ ']')) ≠ "peer"
        · have hps : pstep keyattr lines m i l =
              .inr (closeSect keyattr lines m,
                .valueError ("Unsupported section " ++
                  pyLower ((processedLine l).data.drop 1|>.takeWhile
                    (fun c => c ≠ ']')) ++ " in line " ++ toString i)) := by
            simp only [pstep]
            rw [if_neg h1, if_pos h2, hLE]
            dsimp only
            rw [if_pos h3]
          constructor
          · intro m' hstep
            rw [hps] at hstep
            exact absurd hstep (by simp)
          · intro st e hstep
            rw [hps] at hstep
            injection hstep with h4
            injection h4 with h5 h6
            rw [← h5]
            exact StoresOK_mono (Nat.le_succ i) hstOK
        · have hps : pstep keyattr lines m i l =
              .inl (startSection (closeSect keyattr lines m)
                (pyLower ((processedLine l).data.drop 1|>.takeWhile
                  (fun c => c ≠ ']'))) (i : Int) i) := by
            simp only [pstep]
            rw [if_neg h1, if_pos h2, hLE]
            dsimp only
            rw [if_neg h3]
          constructor
          · intro m' hstep
            rw [hps] at hstep
            injection hstep with h4
            rw [← h4]
            refine ⟨StoresOK_mono (Nat.le_succ i) hstOK, ?_, ?_⟩
            · intro e he
              exact absurd he (by simp [startSection])
            · intro s hs
              refine ⟨(i : Int), (i : Int), rfl, rfl, by omega, le_refl _,
                by omega, ?_⟩
              intro e he
              exact absurd he (by simp [startSection])
          · intro st e hstep
            rw [hps] at hstep
            exact absurd hstep (by simp)
      · obtain ⟨he1, he2⟩ := hm.2.1 e hLE
        have hstOK := closeSect_OK keyattr lines i _ (hm1ofLE e hLE)
        by_cases h3 : pyLower ((processedLine l).data.drop 1|>.takeWhile
            (fun c => c ≠ ']')) ≠ "interface" ∧
            pyLower ((processedLine l).data.drop 1|>.takeWhile
            (fun c => c ≠ ']')) ≠ "peer"
        · have hps : pstep keyattr lines m i l =
              .inr (closeSect keyattr lines (withCurLast m (some (e - 1))),
                .valueError ("Unsupported section " ++
                  pyLower ((processedLine l).data.drop 1|>.takeWhile
                    (fun c => c ≠ ']')) ++ " in line " ++ toString i)) := by
            simp only [pstep]
            rw [if_neg h1, if_pos h2, hLE]
            dsimp only
            rw [if_pos h3]
          constructor
          · intro m' hstep
            rw [hps] at hstep
            exact absurd hstep (by simp)
          · intro st e' hstep
            rw [hps] at hstep
            injection hstep with h4
            injection h4 with h5 h6
            rw [← h5]
            exact StoresOK_mono (Nat.le_succ i) hstOK
        · have hps : pstep keyattr lines m i l =
              .inl (startSection
                (closeSect keyattr lines (withCurLast m (some (e - 1))))
                (pyLower ((processedLine l).data.drop 1|>.takeWhile
                  (fun c => c ≠ ']'))) (e + 1) i) := by
            simp only [pstep]
            rw [if_neg h1, if_pos h2, hLE]
            dsimp only
            rw [if_neg h3]
          constructor
          · intro m' hstep
            rw [hps] at hstep
            injection hstep with h4
            rw [← h4]
            refine ⟨StoresOK_mono (Nat.le_succ i) hstOK, ?_, ?_⟩
            · intro e' he'
              exact absurd he' (by simp [startSection])
            · intro s hs
              refine ⟨e + 1, (i : Int), rfl, rfl, by omega, by omega,
                by omega, ?_⟩
              intro e' he'
              exact absurd he' (by simp [startSection])
          · intro st e' hstep
            rw [hps] at hstep
            exact absurd hstep (by simp)
    · by_cases h3 : pyStarts "#" (processedLine l) = true
      · have hps : pstep keyattr lines m i l =
            .inl (withCurLast m (some (i : Int))) := by
          simp only [pstep]
          rw [if_neg h1, if_neg h2, if_pos h3]
        constructor
        · intro m' hstep
          rw [hps] at hstep
          injection hstep with h4
          rw [← h4]
          exact hOKlast m hm rfl
        · intro st e hstep
          rw [hps] at hstep
          exact absurd hstep (by simp)
      · have hps : pstep keyattr lines m i l =
            .inl (withAttrLine m (parse_line (processedLine l)).1
              (parse_line (processedLine l)).2.1 i) := by
          simp only [pstep]
          rw [if_neg h1, if_neg h2, if_neg h3]
        constructor
        · intro m' hstep
          rw [hps] at hstep
          injection hstep with h4
          rw [← h4]
          refine ⟨StoresOK_mono (Nat.le_succ i) hm.1, ?_, ?_⟩
          · intro e he
            obtain ⟨he1, he2⟩ := hm.2.1 e he
            exact ⟨he1, by omega⟩
          · intro s hs
            obtain ⟨f, l', hcf, hcl, hf0, hfl, hln, hle⟩ := hm.2.2 s hs
            exact ⟨f, (i : Int), hcf, rfl, hf0, by omega, by omega, hle⟩
        · intro st e hstep
          rw [hps] at hstep
          exact absurd hstep (by simp)

theorem parseGo_OK (keyattr : String) (lines : List String) :
    ∀ (rest : List String) (m : PMach) (i : Nat), MachOK i m →
    StoresOK (i + rest.length) (parseGo keyattr lines m i rest).1 := by
  intro rest
  induction rest with
  | nil =>
    intro m i hm
    simpa [parseGo] using closeSect_OK keyattr lines i m hm
  | cons l rest ih =>
    intro m i hm
    rw [parseGo]
    rcases hst : pstep keyattr lines m i l with m' | ⟨st, e⟩
    · have := ih m' (i + 1) ((pstep_OK keyattr lines m i l hm).1 m' hst)
      have heq : i + 1 + rest.length = i + (rest.length + 1) := by omega
      rw [heq] at this
      simpa using this
    · have := (pstep_OK keyattr lines m i l hm).2 st e hst
      exact StoresOK_mono (by simp) this

theorem initMach_OK : MachOK 0 initMach := by
  refine ⟨⟨fun r hr => by simp [initMach] at hr, fun kr hkr => by simp [initMach] at hkr⟩, ?_, ?_⟩
  · intro e he
    rw [initMach] at he
    injection he with he
    constructor <;> omega
  · intro s hs
    simp [initMach] at hs

theorem parse_lines_OK (keyattr : String) (lines : List String) :
    ∀ kr ∈ (parse_lines keyattr lines).1.2, RecOK lines.length kr.2 := by
  intro kr hkr
  have := parseGo_OK keyattr lines lines initMach 0 initMach_OK
  rw [Nat.zero_add] at this
  exact this.2 kr hkr

/-! ## mark/unmark line transforms -/

theorem markLines_rel (fl ll : Nat) :
    ∀ (ls : List String) (i : Nat),
    List.Forall₂ (fun a b => processedLine a = processedLine b)
      (markLines fl ll i ls) ls := by
  intro ls
  induction ls with
  | nil => intro i; rw [markLines]; exact List.Forall₂.nil
  | cons a t ih =>
    intro i
    rw [markLines]
    refine List.Forall₂.cons ?_ (ih (i + 1))
    split
    · exact processedLine_mark a
    · rfl

theorem markLines_getElem? (fl ll : Nat) :
    ∀ (ls : List String) (s j : Nat),
    (markLines fl ll s ls)[j]? =
      (ls[j]?).map (fun l => if fl ≤ s + j ∧ s + j ≤ ll then "#! " ++ l else l) := by
  intro ls
  induction ls with
  | nil => intro s j; simp [markLines]
  | cons a t ih =>
    intro s j
    rw [markLines]
    rcases j with _ | j
    · simp
    · rw [List.getElem?_cons_succ, List.getElem?_cons_succ, ih (s + 1) j]
      have harith : s + 1 + j = s + (j + 1) := by omega
      rw [harith]

theorem unmarkLines_getElem? (fl ll : Nat) :
    ∀ (ls : List String) (s j : Nat),
    (unmarkLines fl ll s ls)[j]? =
      (ls[j]?).map (fun l => if fl ≤ s + j ∧ s + j ≤ ll then pyReplaceDM l else l) := by
  intro ls
  induction ls with
  | nil => intro s j; simp [unmarkLines]
  | cons a t ih =>
    intro s j
    rw [unmarkLines]
    rcases j with _ | j
    · simp
    · rw [List.getElem?_cons_succ, List.getElem?_cons_succ, ih (s + 1) j]
      have harith : s + 1 + j = s + (j + 1) := by omega
      rw [harith]

/-! ## C6 and C5: disable/enable round trips -/

/-- The representation invariant every WGConfig reached through the API
with a well-formed buffer satisfies: the buffer parses without error and
each derived cache is either unbuilt or holds exactly the parse of the
current buffer. -/
def GoodState (cfg : WGConfig) : Prop :=
  ∃ ifc ps, parse_lines cfg.keyattr cfg.lines = ((ifc, ps), none) ∧
    (cfg.ifaceC = Cached.unbuilt ∨ cfg.ifaceC = Cached.built ifc) ∧
    (cfg.peersC = Cached.unbuilt ∨ cfg.peersC = Cached.built ps)

theorem peersProp_good (cfg : WGConfig) (ifc : Option Record) (ps : Peers)
    (hpl : parse_lines cfg.keyattr cfg.lines = ((ifc, ps), none))
    (hpc : cfg.peersC = Cached.unbuilt ∨ cfg.peersC = Cached.built ps) :
    ∃ c, peersProp cfg = (.ok ps, c) ∧ c.lines = cfg.lines ∧
      c.keyattr = cfg.keyattr ∧ c.peersC = Cached.built ps := by
  rcases hpc with h | h
  · refine ⟨{ cfg with ifaceC := .built ifc, peersC := .built ps },
      ?_, rfl, rfl, rfl⟩
    simp [peersProp, parseNow, h, hpl]
  · exact ⟨cfg, by simp [peersProp, h], rfl, rfl, h⟩

theorem reRec_firstline (L : List String) (r : Record) :
    (reRec L r).firstline = r.firstline := rfl

theorem reRec_lastline (L : List String) (r : Record) :
    (reRec L r).lastline = r.lastline := rfl

/-- Remarking a peer's span turns its recomputed disabled flag on: the
first raw line of the remarked section starts with the marker. -/
theorem reRec_marked_disabled (ls : List String) (r : Record)
    (h1 : r.firstline ≤ r.lastline) (h2 : r.lastline < ls.length) :
    (reRec (markLines r.firstline r.lastline 0 ls) r).disabled = true := by
  have hfl : r.firstline < ls.length := by omega
  have hx : ls[r.firstline]? = some ls[r.firstline] :=
    List.getElem?_eq_getElem hfl
  have hmk : (markLines r.firstline r.lastline 0 ls)[r.firstline]? =
      some ("#! " ++ ls[r.firstline]) := by
    rw [markLines_getElem? r.firstline r.lastline ls 0 r.firstline, hx]
    simp only [Option.map_some']
    rw [if_pos ⟨by omega, by omega⟩]
  have hhead : (pySlice (markLines r.firstline r.lastline 0 ls)
      r.firstline r.lastline).head? = some ("#! " ++ ls[r.firstline]) := by
    rw [pySlice, head?_take_pos _ _ (by omega), List.head?_eq_getElem?,
      List.getElem?_drop, Nat.add_zero, hmk]
  rw [reRec]
  show pyStarts "#! " ((pySlice (markLines r.firstline r.lastline 0 ls)
      r.firstline r.lastline).headD "") = true
  rw [List.headD_eq_head?_getD, hhead]
  exact pyStarts_mark _

/-- Unmarking an untouched-marker-free buffer undoes marking. -/
theorem unmark_mark (fl ll : Nat) (ls : List String)
    (hclean : ∀ l ∈ pySlice ls fl ll, hasDM l.data = false) :
    unmarkLines fl ll 0 (markLines fl ll 0 ls) = ls := by
  apply List.ext_getElem?
  intro j
  rw [unmarkLines_getElem?, markLines_getElem?]
  rcases hj : ls[j]? with _ | x
  · rfl
  · simp only [Option.map_some']
    by_cases hin : fl ≤ 0 + j ∧ 0 + j ≤ ll
    · rw [if_pos hin, if_pos hin]
      have hmem : x ∈ pySlice ls fl ll := by
        have hsl : (pySlice ls fl ll)[j - fl]? = some x := by
          rw [pySlice, List.getElem?_take, if_pos (by omega),
            List.getElem?_drop]
          have : fl + (j - fl) = j := by omega
          rw [this, hj]
        exact List.getElem?_mem hsl
      rw [pyReplaceDM_mark_clean x (hclean x hmem)]
    · rw [if_neg hin, if_neg hin]

/-- C6: `disable_peer` is idempotent: once a call has succeeded, a second
call on the same key succeeds as a no-op (decided through the rebuilt
disabled flag) and leaves the Line Buffer identical. -/
theorem wg_c6_disable_idempotent (cfg : WGConfig) (k : Val) (u : Unit)
    (c1 : WGConfig) (hg : GoodState cfg)
    (h : disable_peer k cfg = (.ok u, c1)) :
    (disable_peer k c1).1 = .ok () ∧ (disable_peer k c1).2.lines = c1.lines := by
  obtain ⟨ifc, ps, hpl, hic, hpc⟩ := hg
  obtain ⟨c, hps, hcl, hck, hcp⟩ := peersProp_good cfg ifc ps hpl hpc
  simp only [disable_peer, hps] at h
  rcases hgk : dictGet (peerKey k) ps with _ | r
  · rw [hgk] at h
    simp at h
  · rw [hgk] at h
    dsimp only at h
    by_cases hd : r.disabled = true
    · rw [if_pos hd] at h
      injection h with h1 h2
      subst h2
      have hps2 : peersProp c = (.ok ps, c) := by
        simp [peersProp, hcp]
      have hcall : disable_peer k c = (.ok (), c) := by
        simp only [disable_peer, hps2, hgk]
        rw [if_pos hd]
      rw [hcall]
      exact ⟨rfl, rfl⟩
    · rw [if_neg hd] at h
      injection h with h1 h2
      simp only [invalidate_data] at h2
      rw [hcl, hck] at h2
      have hrOK : RecOK cfg.lines.length r := by
        refine parse_lines_OK cfg.keyattr cfg.lines (peerKey k, r) ?_
        rw [hpl]
        exact dictGet_mem _ _ _ hgk
      have hpl2 : parse_lines cfg.keyattr
          (markLines r.firstline r.lastline 0 cfg.lines) =
          ((reIfc (markLines r.firstline r.lastline 0 cfg.lines) ifc,
            rePeers (markLines r.firstline r.lastline 0 cfg.lines) ps),
           none) := by
        rw [parse_lines_re cfg.keyattr cfg.lines _
          (markLines_rel r.firstline r.lastline cfg.lines 0), hpl]
      have hcall : disable_peer k c1 =
          (.ok (),
           ({ keyattr := cfg.keyattr,
              lines := markLines r.firstline r.lastline 0 cfg.lines,
              ifaceC := .built (reIfc (markLines r.firstline r.lastline 0 cfg.lines) ifc),
              peersC := .built (rePeers (markLines r.firstline r.lastline 0 cfg.lines) ps) } : WGConfig)) := by
        rw [← h2]
        simp only [disable_peer, peersProp, parseNow, hpl2]
        rw [dictGet_rePeers, hgk]
        simp only [Option.map_some']
        rw [if_pos (reRec_marked_disabled cfg.lines r hrOK.1 hrOK.2)]
      rw [hcall]
      refine ⟨rfl, ?_⟩
      rw [← h2]

/-- C6 witness configuration: a freshly loaded file with one enabled
peer. -/
def c6cfg : WGConfig :=
  ⟨"PublicKey", ["[Interface]", "", "[Peer]", "PublicKey = K"],
   .unbuilt, .unbuilt⟩

theorem wg_c6_disable_idempotent_witness :
    (disable_peer (.str "K") (disable_peer (.str "K") c6cfg).2).1 = .ok () ∧
    (disable_peer (.str "K") (disable_peer (.str "K") c6cfg).2).2.lines =
      (disable_peer (.str "K") c6cfg).2.lines :=
  wg_c6_disable_idempotent c6cfg (.str "K") ()
    (disable_peer (.str "K") c6cfg).2
    ⟨(parse_lines c6cfg.keyattr c6cfg.lines).1.1,
     (parse_lines c6cfg.keyattr c6cfg.lines).1.2,
     by decide, Or.inl rfl, Or.inl rfl⟩
    (by decide)

def c5cfg : WGConfig :=
  ⟨"PublicKey",
   ["[Interface]", "", "[Peer]", "PublicKey = K", "# x #! y"],
   .unbuilt, .unbuilt⟩

/-- C5 counterexample: a peer section containing the byte sequence
`#! ` inside a comment line.  Both calls succeed, but `enable_peer`
removes every occurrence of the marker (`str.replace` replaces all), so
the buffer is not restored byte-for-byte: the comment line
`# x #! y` comes back as `# x y`. -/
theorem wg_c5_counterexample :
    (disable_peer (.str "K") c5cfg).1 = .ok () ∧
    (enable_peer (.str "K") (disable_peer (.str "K") c5cfg).2).1 = .ok () ∧
    (enable_peer (.str "K") (disable_peer (.str "K") c5cfg).2).2.lines ≠
      c5cfg.lines := by
  decide

/-- C5 amended: for every loaded configuration and enabled peer key
whose section lines do not already contain the disable marker `#! ` as a
substring, `disable_peer` followed by `enable_peer` restores the buffer
byte-for-byte. -/
theorem wg_c5_disable_enable_restores (cfg : WGConfig) (k : Val)
    (r : Record) (hg : GoodState cfg)
    (hr : dictGet (peerKey k) (parse_lines cfg.keyattr cfg.lines).1.2 =
      some r)
    (hen : r.disabled = false)
    (hclean : ∀ l ∈ pySlice cfg.lines r.firstline r.lastline,
      hasDM l.data = false) :
    (disable_peer k cfg).1 = .ok () ∧
    (enable_peer k (disable_peer k cfg).2).1 = .ok () ∧
    (enable_peer k (disable_peer k cfg).2).2.lines = cfg.lines := by
  obtain ⟨ifc, ps, hpl, hic, hpc⟩ := hg
  rw [hpl] at hr
  obtain ⟨c, hps, hcl, hck, hcp⟩ := peersProp_good cfg ifc ps hpl hpc
  have hpl2 : parse_lines cfg.keyattr
      (markLines r.firstline r.lastline 0 cfg.lines) =
      ((reIfc (markLines r.firstline r.lastline 0 cfg.lines) ifc,
        rePeers (markLines r.firstline r.lastline 0 cfg.lines) ps),
       none) := by
    rw [parse_lines_re cfg.keyattr cfg.lines _
      (markLines_rel r.firstline r.lastline cfg.lines 0), hpl]
  have hdis : disable_peer k cfg =
      (.ok (), invalidate_data
        { c with lines := markLines r.firstline r.lastline 0 c.lines }) := by
    simp only [disable_peer, hps]
    rw [hr]
    dsimp only
    rw [if_neg (by rw [hen]; exact Bool.false_ne_true)]
  have hc1 : invalidate_data
      { c with lines := markLines r.firstline r.lastline 0 c.lines } =
      ({ keyattr := cfg.keyattr,
         lines := markLines r.firstline r.lastline 0 cfg.lines,
         ifaceC := .unbuilt, peersC := .unbuilt } : WGConfig) := by
    simp only [invalidate_data]
    rw [hcl, hck]
  have hena : enable_peer k (disable_peer k cfg).2 =
      (.ok (),
       ({ keyattr := cfg.keyattr,
          lines := unmarkLines r.firstline r.lastline 0 (markLines r.firstline r.lastline 0 cfg.lines),
          ifaceC := .unbuilt, peersC := .unbuilt } : WGConfig)) := by
    rw [hdis]
    dsimp only
    rw [hc1]
    simp only [enable_peer, peersProp, parseNow, hpl2]
    rw [dictGet_rePeers, hr]
    simp only [Option.map_some']
    rfl
  refine ⟨by rw [hdis], by rw [hena], ?_⟩
  rw [hena]
  exact unmark_mark r.firstline r.lastline cfg.lines hclean

/-- C5 witness configuration: one enabled peer whose section lines carry
no embedded disable marker. -/
def c5wcfg : WGConfig :=
  ⟨"PublicKey",
   ["[Interface]", "", "[Peer]", "PublicKey = K", "# note"],
   .unbuilt, .unbuilt⟩

theorem wg_c5_disable_enable_restores_witness :
    (disable_peer (.str "K") c5wcfg).1 = .ok () ∧
    (enable_peer (.str "K") (disable_peer (.str "K") c5wcfg).2).1 = .ok () ∧
    (enable_peer (.str "K") (disable_peer (.str "K") c5wcfg).2).2.lines =
      c5wcfg.lines :=
  wg_c5_disable_enable_restores c5wcfg (.str "K")
    ((dictGet (peerKey (.str "K"))
      (parse_lines c5wcfg.keyattr c5wcfg.lines).1.2).getD
      ⟨[], 0, 0, [], false⟩)
    ⟨(parse_lines c5wcfg.keyattr c5wcfg.lines).1.1,
     (parse_lines c5wcfg.keyattr c5wcfg.lines).1.2,
     by decide, Or.inl rfl, Or.inl rfl⟩
    (by decide) (by decide) (by decide)

end WgVerify
